import Mathlib

/-!
Verification development for the design-token build scripts of this repository.

The repository contains four evolutionary variants of the same pipeline:
`build-tokens.js` (the earliest, modelled in namespace `BuildTokens`) and the
most complete variant (the second script of `src/unnamed/part_000`, with
brand-layer indirection, modelled in namespace `V4`).  The color parser
`toComposeColor` is byte-for-byte identical in all variants and is modelled
once at top level.

Strings are modelled as `List Char` internally (`String` at the interfaces);
JavaScript numbers that only ever hold integers are modelled as `Nat`.  The
single floating-point computation, `Math.round(parseFloat(a) * 255)`, is
modelled bit-exactly: `parseFloat` rounds the exact decimal value of the
capture to the nearest IEEE-754 binary64 value (ties to even), the product
with 255 is rounded the same way, and `Math.round` is the mathematical
round-half-toward-positive of the resulting value, as the ECMAScript
specification prescribes (no further floating-point operation is involved).
-/

/-! ## Character helpers (models of the JS character classes used in the regexes) -/

/-- Model of the regex class `\d`. -/
def isDigitChar (c : Char) : Bool :=
  48 ≤ c.toNat && c.toNat ≤ 57

/-- Model of the regex class `\s` (ECMAScript white space and line terminators). -/
def isSpaceChar (c : Char) : Bool :=
  let n := c.toNat
  n == 32 || n == 9 || n == 10 || n == 11 || n == 12 || n == 13 ||
  n == 0xa0 || n == 0x1680 || (0x2000 ≤ n && n ≤ 0x200a) ||
  n == 0x2028 || n == 0x2029 || n == 0x202f || n == 0x205f || n == 0x3000 || n == 0xfeff

/-- Model of the regex class `[\d.]`. -/
def isDigitDotChar (c : Char) : Bool :=
  isDigitChar c || c == '.'

/-- Model of the regex class `[A-Fa-f0-9]`. -/
def isHexDigitChar (c : Char) : Bool :=
  isDigitChar c || (65 ≤ c.toNat && c.toNat ≤ 70) || (97 ≤ c.toNat && c.toNat ≤ 102)

/-- Model of the regex class `[A-Z]`. -/
def isAsciiUpper (c : Char) : Bool :=
  65 ≤ c.toNat && c.toNat ≤ 90

/-- Model of the regex class `[a-zA-Z0-9]`. -/
def isAlnumChar (c : Char) : Bool :=
  isDigitChar c || isAsciiUpper c || (97 ≤ c.toNat && c.toNat ≤ 122)

/-- Model of JS `String.prototype.toUpperCase` on one character (ASCII range;
all characters this pipeline upper-cases are ASCII). -/
def jsToUpper (c : Char) : Char :=
  if 97 ≤ c.toNat && c.toNat ≤ 122 then Char.ofNat (c.toNat - 32) else c

/-- Model of JS `String.prototype.toLowerCase` on one character (ASCII range). -/
def jsToLower (c : Char) : Char :=
  if 65 ≤ c.toNat && c.toNat ≤ 90 then Char.ofNat (c.toNat + 32) else c

/-- Decimal value of a digit string, the model of `parseInt` on a pure digit
capture of `(\d+)`. -/
def natOfDigits (cs : List Char) : Nat :=
  cs.foldl (fun a c => 10 * a + (c.toNat - 48)) 0

/-- Hexadecimal digit character, lower case, as produced by JS
`Number.prototype.toString(16)`. -/
def hexDigitChar (n : Nat) : Char :=
  if n < 10 then Char.ofNat (48 + n) else Char.ofNat (87 + n)

/-- Fuel-driven digit expansion for `natToHex`; the fuel `n + 1` always
suffices because `n / 16 < n` for `n ≥ 16`. -/
def natToHexAux (fuel : Nat) (n : Nat) : List Char :=
  match fuel with
  | 0 => []
  | fuel + 1 =>
    if n < 16 then [hexDigitChar n]
    else natToHexAux fuel (n / 16) ++ [hexDigitChar (n % 16)]

/-- Model of JS `n.toString(16)` for a non-negative integer `n`. -/
def natToHex (n : Nat) : List Char := natToHexAux (n + 1) n

/-- Model of JS `s.padStart(2, '0')`. -/
def padStart2 (cs : List Char) : List Char :=
  if cs.length < 2 then List.replicate (2 - cs.length) '0' ++ cs else cs

/-- Model of the channel-byte pipeline `n.toString(16).padStart(2, '0').toUpperCase()`. -/
def jsHexByte (n : Nat) : List Char :=
  (padStart2 (natToHex n)).map jsToUpper

/-- Model of `parseFloat` restricted to captures of `[\d.]+`: leading digits,
an optional dot, then further digits; the remainder (for example a second dot
onward) is ignored.  Returns the exact value as `(numerator, fractional digit
count)`, i.e. the value is `numerator / 10 ^ count`; `none` models `NaN`
(no digits at all before the ignored remainder). -/
def parseDec (cs : List Char) : Option (Nat × Nat) :=
  let d1 := cs.takeWhile isDigitChar
  let rest := cs.dropWhile isDigitChar
  match rest with
  | '.' :: rest2 =>
    let d2 := rest2.takeWhile isDigitChar
    if d1.isEmpty && d2.isEmpty then none
    else some (natOfDigits d1 * 10 ^ d2.length + natOfDigits d2, d2.length)
  | _ => if d1.isEmpty then none else some (natOfDigits d1, 0)

/-- The idealized alpha rounding `round(a * 255)` over exact rationals for
`a = n / 10 ^ k ≥ 0` (round half up, `⌊a * 255 + 1/2⌋`).  This is the
specification's reading of the alpha conversion; the program computes the
product in binary64 instead, and the two disagree on decimal literals of
extreme precision (see the C7 counterexample). -/
def jsRound255 (n k : Nat) : Nat :=
  (510 * n + 10 ^ k) / (2 * 10 ^ k)

/-- Round-to-nearest with ties to even of the quotient `a / b` (`b > 0`):
the integer-grid case of IEEE-754 roundTiesToEven. -/
def rne (a b : Nat) : Nat :=
  let t := a / b
  let r := a % b
  if 2 * r < b then t
  else if b < 2 * r then t + 1
  else if t % 2 == 0 then t else t + 1

/-- A non-negative IEEE-754 binary64 value: either a finite value `m · 2^u`
(as produced by rounding: `m < 2^53` and `u ≥ -1074`) or infinity. -/
inductive F64 where
  | finite (m : Nat) (u : Int)
  | inf
deriving DecidableEq

/-- Fuel-driven floor of the base-2 logarithm; fuel `x` always suffices
because the argument halves at every step. -/
def ilog2Aux : Nat → Nat → Nat
  | 0, _ => 0
  | fuel + 1, x => if x < 2 then 0 else ilog2Aux fuel (x / 2) + 1

/-- Floor of the base-2 logarithm of a positive natural number. -/
def ilog2 (x : Nat) : Nat := ilog2Aux x x

/-- Round the non-negative rational `n / d` (`d > 0`) to the nearest
IEEE-754 binary64 value, ties to even: pick the binade exponent `e` with
`2^e ≤ n / d < 2^(e+1)` (computed through the integer `⌊(n · 2^S) / d⌋`
with `S` large enough that this integer is positive), round on the grid of
spacing `2^(e-52)` clamped below to the subnormal grid `2^-1074`,
re-normalize when the mantissa rounds up to `2^53`, and overflow to
infinity beyond the largest finite value `(2^53 - 1) · 2^971`. -/
def f64OfRat (n d : Nat) : F64 :=
  if n == 0 then .finite 0 0
  else
    let S := ilog2 d + 2
    let e : Int := (ilog2 (n * 2 ^ S / d) : Int) - (S : Int)
    let u : Int := max (e - 52) (-1074)
    if 971 < u then .inf
    else
      let m := if u ≤ 0 then rne (n * 2 ^ (-u).toNat) d else rne n (d * 2 ^ u.toNat)
      if m == 2 ^ 53 then
        if u = 971 then .inf else .finite (2 ^ 52) (u + 1)
      else .finite m u

/-- Model of `parseFloat` on a capture of `[\d.]+`: read the exact decimal
value with `parseDec`, then round it to binary64; `none` models `NaN`. -/
def parseFloat64 (cs : List Char) : Option F64 :=
  match parseDec cs with
  | none => none
  | some (n, k) => some (f64OfRat n (10 ^ k))

/-- The IEEE-754 binary64 product with the exact integer 255: one more
roundTiesToEven of the exact product. -/
def f64Mul255 : F64 → F64
  | .inf => .inf
  | .finite m u =>
    if 0 ≤ u then f64OfRat (m * 255 * 2 ^ u.toNat) 1
    else f64OfRat (m * 255) (2 ^ (-u).toNat)

/-- Model of `Math.round` on a non-negative double: the mathematical
round-half-toward-positive of its exact value, which is how the ECMAScript
specification defines it (in particular no floating-point addition of 0.5
takes place); `none` models infinity. -/
def jsMathRound : F64 → Option Nat
  | .inf => none
  | .finite m u =>
    if 0 ≤ u then some (m * 2 ^ u.toNat)
    else some ((2 * m + 2 ^ (-u).toNat) / 2 ^ ((-u).toNat + 1))

/-! ## The color literal parser `toComposeColor` (identical in all four variants) -/

/-- Model of `value.startsWith('\x7b') && value.endsWith('\x7d')`. -/
def bracketed (cs : List Char) : Bool :=
  cs.head? == some '\x7b' && cs.getLast? == some '\x7d'

/-- Captures of the rgba regex: the three digit captures and the optional
alpha capture. -/
abbrev RgbaCaps := List Char × List Char × List Char × Option (List Char)

/-- Model of matching the argument part
`\s*(\d+)\s*,\s*(\d+)\s*,\s*(\d+)\s*(?:,\s*([\d.]+))?\s*\)` of the rgba regex
at the start of the input; returns the captures and the rest of the input
after the match.  The character classes `\d`, `\s`, `[\d.]`, `,`, `)` are
pairwise disjoint, so the greedy regex semantics coincide with this
deterministic maximal-munch scan. -/
def matchArgs (cs : List Char) : Option (RgbaCaps × List Char) :=
  let s1 := cs.dropWhile isSpaceChar
  let r := s1.takeWhile isDigitChar
  let s2 := s1.dropWhile isDigitChar
  if r.isEmpty then none else
  match s2.dropWhile isSpaceChar with
  | c1 :: s4 =>
    if c1 = ',' then
      let s5 := s4.dropWhile isSpaceChar
      let g := s5.takeWhile isDigitChar
      let s6 := s5.dropWhile isDigitChar
      if g.isEmpty then none else
      match s6.dropWhile isSpaceChar with
      | c2 :: s8 =>
        if c2 = ',' then
          let s9 := s8.dropWhile isSpaceChar
          let b := s9.takeWhile isDigitChar
          let s10 := s9.dropWhile isDigitChar
          if b.isEmpty then none else
          match s10.dropWhile isSpaceChar with
          | c3 :: s12 =>
            if c3 = ',' then
              let s13 := s12.dropWhile isSpaceChar
              let a := s13.takeWhile isDigitDotChar
              let s14 := s13.dropWhile isDigitDotChar
              if a.isEmpty then none else
              match s14.dropWhile isSpaceChar with
              | c4 :: s16 => if c4 = ')' then some ((r, g, b, some a), s16) else none
              | [] => none
            else if c3 = ')' then some ((r, g, b, none), s12) else none
          | [] => none
        else none
      | [] => none
    else none
  | [] => none

/-- Model of attempting the rgba regex `rgba?\(...` at the start of the input.
If the literal `a` is present but the parenthesis or arguments fail, the
regex backtracks to `rgb` + `\(`, which then fails on the `a`; so no
alternative succeeds, exactly as encoded here. -/
def matchRgbaFrom (cs : List Char) : Option (RgbaCaps × List Char) :=
  match cs with
  | c1 :: c2 :: c3 :: rest =>
    if c1 = 'r' ∧ c2 = 'g' ∧ c3 = 'b' then
      match rest with
      | c4 :: rest2 =>
        if c4 = 'a' then
          match rest2 with
          | c5 :: rest3 => if c5 = '(' then matchArgs rest3 else none
          | [] => none
        else if c4 = '(' then matchArgs rest2 else none
      | [] => none
    else none
  | _ => none

/-- Model of the unanchored regex search `value.match(/rgba?\(...\)/)`: the
regex engine tries each start offset from the left and returns the first
match. -/
def findRgba : List Char → Option RgbaCaps
  | [] => none
  | c :: rest =>
    match matchRgbaFrom (c :: rest) with
    | some (caps, _) => some caps
    | none => findRgba rest

/-- Model of the anchored regex `^#([A-Fa-f0-9]{6})$`. -/
def isHex6 (cs : List Char) : Bool :=
  match cs with
  | '#' :: rest => rest.length == 6 && rest.all isHexDigitChar
  | _ => false

/-- Model of the anchored regex `^#([A-Fa-f0-9]{8})$`. -/
def isHex8 (cs : List Char) : Bool :=
  match cs with
  | '#' :: rest => rest.length == 8 && rest.all isHexDigitChar
  | _ => false

/-- The alpha byte of the rgba branch:
`a !== undefined ? Math.round(parseFloat(a) * 255) : 255`, computed in
IEEE-754 binary64 exactly as the program computes it, then
`.toString(16).padStart(2, '0').toUpperCase()`.  `parseFloat` yielding
`NaN` makes the pipeline print `NAN`, and an infinite value prints
`INFINITY`, both modelled literally. -/
def rgbaAlphaHex (a : Option (List Char)) : List Char :=
  match a with
  | some astr =>
    match parseFloat64 astr with
    | some f =>
      match jsMathRound (f64Mul255 f) with
      | some alpha => jsHexByte alpha
      | none => "INFINITY".data
    | none => "NAN".data
  | none => jsHexByte 255

/-- The body of `toComposeColor(value)` on the character list of a present
string value: reject the empty string (falsy) and brace-delimited
references, then try the rgba regex, the 6-digit hex regex and the 8-digit
hex regex in source order. -/
def toComposeColorChars (cs : List Char) : Option (List Char) :=
  if cs.isEmpty then none
  else if bracketed cs then none
  else
    match findRgba cs with
    | some (r, g, b, a) =>
      some ("Color(0x".data ++ rgbaAlphaHex a ++
        jsHexByte (natOfDigits r) ++ jsHexByte (natOfDigits g) ++
        jsHexByte (natOfDigits b) ++ ")".data)
    | none =>
      if isHex6 cs then
        some ("Color(0xFF".data ++ (cs.drop 1).map jsToUpper ++ ")".data)
      else if isHex8 cs then
        let u := (cs.drop 1).map jsToUpper
        some ("Color(0x".data ++ u.drop 6 ++ u.take 6 ++ ")".data)
      else none

/-- Model of `toComposeColor(value)` from the build scripts (identical in all
four variants).  `none` as input models a missing (`undefined`) value. -/
def toComposeColor (value : Option String) : Option String :=
  match value with
  | none => none
  | some s => (toComposeColorChars s.data).map String.mk

/-- Formalization of the specification's notion of an "rgba()/rgb()
functional literal": the whole string is one match of the rgba grammar
(nothing before or after it). -/
def isRgbaFunctionalLiteral (cs : List Char) : Bool :=
  match matchRgbaFrom cs with
  | some (_, rest) => rest.isEmpty
  | none => false


/-! ## String helpers shared by the name normalizers -/

/-- Model of JS `str.split('-')`: `n` separators yield `n + 1` parts,
empty parts included, and the empty string yields one empty part. -/
def splitHyphen (cs : List Char) : List (List Char) :=
  match cs with
  | [] => [[]]
  | c :: rest =>
    let r := splitHyphen rest
    if c = '-' then [] :: r
    else
      match r with
      | h :: t => (c :: h) :: t
      | [] => [[c]]

/-- Model of `part.charAt(0).toUpperCase() + part.slice(1)`; on the empty
string both pieces are empty. -/
def capitalizeFirst (cs : List Char) : List Char :=
  match cs with
  | [] => []
  | c :: rest => jsToUpper c :: rest

/-- Case-insensitive test that `pat` is a prefix of `cs`, the model of an
anchored case-insensitive regex `^pat`. -/
def ciIsPre (pat cs : List Char) : Bool :=
  (cs.take pat.length).map jsToLower == pat.map jsToLower

/-- Case-insensitive test that `pat` is a suffix of `cs`, the model of an
anchored case-insensitive regex `pat$`. -/
def ciEndsWith (cs pat : List Char) : Bool :=
  (pat.map jsToLower).isSuffixOf (cs.map jsToLower)

/-- Model of `str.replace(pat, '')` for a regex `pat` anchored at the start
with the `i` flag: strip one case-insensitive occurrence of the given
literal prefix. -/
def stripPre (pat : String) (cs : List Char) : List Char :=
  if ciIsPre pat.data cs then cs.drop pat.data.length else cs

/-- Worker for `replaceCI`, driven by fuel so the recursion is structural;
fuel `cs.length` always suffices because every step consumes at least one
character (the pattern is split into head and tail to make this visible). -/
def replaceCIGo (p : Char) (ps : List Char) (repl : List Char) : Nat → List Char → List Char
  | _, [] => []
  | 0, cs => cs
  | fuel + 1, c :: rest =>
    if ciIsPre (p :: ps) (c :: rest) then
      repl ++ replaceCIGo p ps repl fuel (rest.drop ps.length)
    else c :: replaceCIGo p ps repl fuel rest

/-- Model of JS `str.replace(/pat/gi, repl)` for a fixed literal pattern:
left-to-right, non-overlapping, case-insensitive global replacement. -/
def replaceCI (pat repl : List Char) (cs : List Char) : List Char :=
  match pat with
  | [] => cs
  | p :: ps => replaceCIGo p ps repl cs.length cs


/-! ## The `build-tokens.js` identifier normalizer (namespace `BuildTokens`) -/

namespace BuildTokens

/-- Model of the `replace` that rewrites a terminal `-temp` (anchored at the
end, case-sensitive in this variant) to `Temp`: drop the 5 suffix
characters and append `Temp`. -/
def replTempCS (cs : List Char) : List Char :=
  if "-temp".data.isSuffixOf cs then cs.take (cs.length - 5) ++ "Temp".data else cs

/-- Fuel-driven worker for `camelHyphen`; fuel `cs.length` always suffices. -/
def camelHyphenAux : Nat → List Char → List Char
  | _, [] => []
  | 0, cs => cs
  | fuel + 1, '-' :: c :: rest =>
    if isAlnumChar c then jsToUpper c :: camelHyphenAux fuel rest
    else '-' :: camelHyphenAux fuel (c :: rest)
  | fuel + 1, c :: rest => c :: camelHyphenAux fuel rest

/-- Model of the global `replace` that upper-cases `[a-zA-Z0-9]` after a
hyphen: each hyphen directly followed by an alphanumeric character is
removed and that character upper-cased; scanning is left-to-right and
non-overlapping. -/
def camelHyphen (cs : List Char) : List Char := camelHyphenAux cs.length cs

/-- The per-segment body of `toPrimitiveKotlinName` in `build-tokens.js`:
underscore-prefix segments that begin with a digit, rewrite the `-temp`
suffix, camel-case internal hyphens, then lower-case (first segment) or
upper-case (later segments) the first character. -/
def primPiece (idx : Nat) (part : List Char) : List Char :=
  let p1 :=
    match part with
    | c :: _ => if isDigitChar c then '_' :: part else part
    | [] => part
  let p2 := replTempCS p1
  let p3 := camelHyphen p2
  match p3 with
  | [] => []
  | c :: rest => (if idx == 0 then jsToLower c else jsToUpper c) :: rest

/-- Model of `toPrimitiveKotlinName(path)` from `build-tokens.js`. -/
def toPrimitiveKotlinName (path : List String) : String :=
  String.mk ((path.mapIdx (fun i p => primPiece i p.data)).flatten)


end BuildTokens

/-! ## The most complete variant's normalizers (namespace `V4`) -/

namespace V4

/-- The fixed vocabulary list of `toPascalCasePrimitive`: each word is
rewritten, case-insensitively and globally, to its capitalized form, in this
order. -/
def colorWordFixes : List String :=
  ["grey", "blue", "green", "white", "black", "yellow", "red", "pink", "alpha",
   "naval", "royal", "electric", "duck", "lime", "peacock", "pop", "strawberry",
   "raspberry", "fuchsia", "marine", "sky", "tropos", "stratos", "platinum",
   "diamond", "gold", "silver", "limitless", "classic", "temp"]

/-- The chained `.replace(/word/gi, 'Word')` calls of `toPascalCasePrimitive`. -/
def fixWords (cs : List Char) : List Char :=
  colorWordFixes.foldl (fun acc w => replaceCI w.data (capitalizeFirst w.data) acc) cs

/-- One segment of `toPascalCasePrimitive`: all-digit segments pass through
unchanged, other segments are capitalized and vocabulary-fixed. -/
def pascalPartPrim (part : List Char) : List Char :=
  if !part.isEmpty && part.all isDigitChar then part
  else fixWords (capitalizeFirst part)

/-- Model of `toPascalCasePrimitive(str)` from the most complete variant. -/
def toPascalCasePrimitive (cs : List Char) : List Char :=
  ((splitHyphen cs).map pascalPartPrim).flatten

/-- One segment of `toPascalCaseSemantic`: all-digit segments pass through
unchanged, other segments are capitalized. -/
def pascalPartSem (part : List Char) : List Char :=
  if !part.isEmpty && part.all isDigitChar then part
  else capitalizeFirst part

/-- Model of `.replace(/Hi$/g, 'High')`: a terminal `Hi` becomes `High`. -/
def replHiEnd (cs : List Char) : List Char :=
  if "Hi".data.isSuffixOf cs then cs.take (cs.length - 2) ++ "High".data else cs

/-- Fuel-driven worker for `replHiUpper`; fuel `cs.length` always suffices. -/
def replHiUpperAux : Nat → List Char → List Char
  | _, [] => []
  | 0, cs => cs
  | fuel + 1, 'H' :: 'i' :: c :: rest =>
    if isAsciiUpper c then 'H' :: 'i' :: 'g' :: 'h' :: c :: replHiUpperAux fuel rest
    else 'H' :: replHiUpperAux fuel ('i' :: c :: rest)
  | fuel + 1, c :: rest => c :: replHiUpperAux fuel rest

/-- Model of `.replace(/Hi([A-Z])/g, 'High$1')`: every `Hi` directly followed
by an ASCII capital becomes `High` plus that capital; left-to-right,
non-overlapping. -/
def replHiUpper (cs : List Char) : List Char := replHiUpperAux cs.length cs

/-- Model of `toPascalCaseSemantic(str)` from the most complete variant. -/
def toPascalCaseSemantic (cs : List Char) : List Char :=
  replHiUpper (replHiEnd (((splitHyphen cs).map pascalPartSem).flatten))

/-- Model of the end-anchored, case-insensitive `replace` of `-temp` by
`Temp` in this variant. -/
def replTempCI (cs : List Char) : List Char :=
  if ciEndsWith cs "-temp".data then cs.take (cs.length - 5) ++ "Temp".data else cs

/-- Model of `toPrimitiveKotlinName(path)` from the most complete variant:
join the path with hyphens, strip the organizational prefixes (each
`replace` is applied to the result of the previous one), rewrite the `-temp`
suffix, and pascal-case the remainder. -/
def toPrimitiveKotlinName (path : List String) : String :=
  let full := (String.intercalate "-" path).data
  let c1 := stripPre "wel-prim-color-leg-" full
  let c2 := stripPre "wel-prim-color-" c1
  let c3 := stripPre "wel-prim-" c2
  let c4 := stripPre "wel-" c3
  let c5 := stripPre "leg-" c4
  String.mk (toPascalCasePrimitive (replTempCI c5))


end V4

/-! ## Token records and string-keyed maps -/

/-- Model of a resolved style-dictionary token as consumed by the formats.
`tkType` models `token.$type || token.type`, `value` models
`token.value || token.$value` (the resolved value), and `original` models
`token.original?.$value || token.original?.value` (the raw value before
reference resolution); `none` models a missing (`undefined`) field. -/
structure Token where
  path : List String
  tkType : Option String
  value : Option String
  original : Option String
deriving DecidableEq

/-- Model of a JS `Map<string, string>` as an association list in insertion
order. -/
abbrev AMap := List (String × String)

/-- Model of `Map.prototype.get` (with `undefined` as `none`). -/
def mget (m : AMap) (k : String) : Option String :=
  (m.find? (fun p => p.1 == k)).map (·.2)

/-- Model of `Map.prototype.has`. -/
def mhas (m : AMap) (k : String) : Bool :=
  (mget m k).isSome

/-- Model of `Map.prototype.set`: update an existing key in place, otherwise
append at the end. -/
def mset (m : AMap) (k v : String) : AMap :=
  match m with
  | [] => [(k, v)]
  | (k', v') :: rest => if k' == k then (k, v) :: rest else (k', v') :: mset rest k v

/-- Model of `token.path.join('.')`. -/
def pathKey (t : Token) : String :=
  String.intercalate "." t.path

/-- Model of `token.path.join('.').toLowerCase()`. -/
def pathLower (t : Token) : List Char :=
  (String.intercalate "." t.path).data.map jsToLower

/-- Exact (case-sensitive) test that `pat` is a prefix of `cs`. -/
def isPreOf (pat cs : List Char) : Bool :=
  cs.take pat.length == pat

/-- Model of JS `String.prototype.includes` for a non-empty search string:
does `pat` occur as a contiguous substring of `cs`? -/
def containsSub (pat : List Char) : List Char → Bool
  | [] => pat.isEmpty
  | c :: rest => isPreOf pat (c :: rest) || containsSub pat rest


/-- Model of the capture of the anchored regex that recognizes a whole
brace-delimited reference (open brace, at least one character that is not a
line terminator — the regex metacharacter `.` excludes line terminators —
then a close brace at the end) and returns the inner text. -/
def braceInner (cs : List Char) : Option (List Char) :=
  if 3 ≤ cs.length ∧ cs.head? = some '\x7b' ∧ cs.getLast? = some '\x7d' then
    let inner := (cs.drop 1).take (cs.length - 2)
    if inner.all (fun c =>
        !(c = '\n' || c = '\r' || c.toNat == 0x2028 || c.toNat == 0x2029)) then
      some inner
    else none
  else none


namespace V4

/-- The filter of the `compose/semantic-collect` format of the most complete
variant: color-typed tokens, without hover or pressed interaction states,
under the `wel.sem.color` path root. -/
def semFilter (t : Token) : Bool :=
  t.tkType == some "color" &&
  !(containsSub "hover".data (pathLower t)) &&
  !(containsSub "pressed".data (pathLower t)) &&
  t.path.head? == some "wel" && t.path[1]? == some "sem" && t.path[2]? == some "color"

/-- The semantic identifier of a token:
`toPascalCaseSemantic(token.path.slice(3).join('-'))`. -/
def semNameOf (t : Token) : String :=
  String.mk (toPascalCaseSemantic (String.intercalate "-" (t.path.drop 3)).data)

/-- Model of `getPrimitiveRef(token)` from the most complete variant: extract
the brace-delimited reference path from the token's original value, then
look it up first in the primitive path map and then in the brandbook path
map. -/
def getPrimitiveRef (pm bm : AMap) (t : Token) : Option String :=
  match t.original with
  | none => none
  | some ov =>
    match braceInner ov.data with
    | none => none
    | some inner =>
      let refPath := String.mk inner
      if mhas pm refPath then mget pm refPath
      else if mhas bm refPath then mget bm refPath
      else none

/-- Mode of a semantic pass (`options.mode`). -/
inductive Mode
  | light
  | dark
deriving DecidableEq

/-- An entry of the global `semanticColorsMap`: insertion-order index plus
the per-mode values (absent fields model absent JS object properties). -/
structure SemEntry where
  name : String
  order : Nat
  light : Option String
  dark : Option String
deriving DecidableEq

/-- Model of `semanticColorsMap.get(name)[mode] = v`. -/
def setMode (e : SemEntry) (m : Mode) (v : String) : SemEntry :=
  match m with
  | .light => { e with light := some v }
  | .dark => { e with dark := some v }

/-- Reading one mode field of an entry. -/
def getMode (e : SemEntry) (m : Mode) : Option String :=
  match m with
  | .light => e.light
  | .dark => e.dark

/-- Update the (unique) entry with the given name in place. -/
def regUpd (reg : List SemEntry) (n : String) (m : Mode) (v : String) : List SemEntry :=
  match reg with
  | [] => []
  | e :: rest => if e.name == n then setMode e m v :: rest else e :: regUpd rest n m v

/-- Model of the map insertion of `compose/semantic-collect`: if the name is
absent, insert a fresh entry whose `order` is the current map size; then
assign the mode field. -/
def regSet (reg : List SemEntry) (n : String) (m : Mode) (v : String) : List SemEntry :=
  if reg.any (fun e => e.name == n) then regUpd reg n m v
  else reg ++ [setMode ⟨n, reg.length, none, none⟩ m v]

/-- Model of `semanticColorsMap.get(name)` by name. -/
def regFind (reg : List SemEntry) (n : String) : Option SemEntry :=
  reg.find? (fun e => e.name == n)

/-- Processing of one token by the `compose/semantic-collect` format of the
most complete variant: filtered tokens whose resolved value parses as a
color are stored under their semantic name, with the primitive reference
(when resolvable) preferred over the literal color; a falsy reference
(absent, or the empty string) falls back to the literal. -/
def collectSemStep (pm bm : AMap) (m : Mode) (reg : List SemEntry) (t : Token) :
    List SemEntry :=
  if semFilter t then
    match toComposeColor t.value with
    | none => reg
    | some c =>
      let stored :=
        match getPrimitiveRef pm bm t with
        | some r => if r == "" then c else r
        | none => c
      regSet reg (semNameOf t) m stored
  else reg

/-- The whole `compose/semantic-collect` pass over a token list. -/
def collectSem (pm bm : AMap) (m : Mode) (ts : List Token) (reg : List SemEntry) :
    List SemEntry :=
  ts.foldl (collectSemStep pm bm m) reg

/-- Model of `Array.from(map.entries()).sort((a, b) => a.order - b.order)`:
a stable sort by the `order` index (the indices are pairwise distinct). -/
def sortByOrder (reg : List SemEntry) : List SemEntry :=
  reg.insertionSort (fun a b => a.order ≤ b.order)

/-- Model of `colors.light || 'Color.Unspecified'` in
`generateMergedSemanticColors`. -/
def emitLight (e : SemEntry) : String :=
  match e.light with
  | some s => if s == "" then "Color.Unspecified" else s
  | none => "Color.Unspecified"

/-- Model of `colors.dark || colors.light || 'Color.Unspecified'` in
`generateMergedSemanticColors`. -/
def emitDark (e : SemEntry) : String :=
  match e.dark with
  | some s => if s == "" then emitLight e else s
  | none => emitLight e

/-- The payload of the merged semantics document: one (identifier, light
value, dark value) triple per registry entry, in `order`-sorted sequence. -/
def mergedEntries (reg : List SemEntry) : List (String × String × String) :=
  (sortByOrder reg).map (fun e => (e.name, emitLight e, emitDark e))

/-- One rendered accessor of `generateMergedSemanticColors`. -/
def renderSemanticLine (x : String × String × String) : String :=
  "    val " ++ x.1 ++ "\n        @Composable\n        get() = getColor(light = " ++
    x.2.1 ++ ", dark = " ++ x.2.2 ++ ")"

/-- Model of `generateMergedSemanticColors`: the rendered accessor lines of
the merged semantics document, in emitted sequence. -/
def generateMergedSemanticColors (reg : List SemEntry) : List String :=
  (mergedEntries reg).map renderSemanticLine

/-- Model of the `compose/primitives-collect` format of the most complete
variant: every color-typed token (no other exclusion) is recorded in the
path-to-identifier map. -/
def collectPrimitives (ts : List Token) (m : AMap) : AMap :=
  ts.foldl
    (fun acc t =>
      if t.tkType == some "color" then
        mset acc (pathKey t) ("AccorColorPrimitives." ++ toPrimitiveKotlinName t.path)
      else acc)
    m

/-- The filter of the `compose/primitives` format of the most complete
variant: color-typed tokens whose path does not contain the segment `leg`. -/
def primFilter (t : Token) : Bool :=
  t.tkType == some "color" && !(t.path.contains "leg")

/-- The (name, line) pair the `compose/primitives` format derives from one
token, when its resolved value parses as a color. -/
def primTokenLine (t : Token) : Option (String × String) :=
  match toComposeColor t.value with
  | none => none
  | some cc =>
    let name := toPrimitiveKotlinName t.path
    some (name, "    val " ++ name ++ " = " ++ cc)

/-- Model of the body of the `compose/primitives` format of the most complete
variant: filter, derive lines, drop non-colors, sort by name (the JS
`localeCompare` collation is modelled by the default string order; the
theorems below do not depend on the collation), and keep the lines. -/
def composePrimitives (ts : List Token) : List String :=
  (((ts.filter primFilter).filterMap primTokenLine).insertionSort
    (fun a b => a.1 ≤ b.1)).map (·.2)

end V4

/-! ## Sample inputs used by the witnesses -/

/-- A sample merged-registry entry that only a light pass populated. -/
def sampleLightOnly : V4.SemEntry :=
  ⟨"TextDefault", 0, some "Color(0xFF0047AB)", none⟩

/-- A sample merged-registry entry that only a dark pass populated. -/
def sampleDarkOnly : V4.SemEntry :=
  ⟨"Accent", 0, none, some "Color(0xFF112233)"⟩

/-- A sample primitive token in the `leg` group. -/
def sampleLegPrimitive : Token :=
  ⟨["wel", "prim", "color", "leg", "blue", "500"], some "color", some "#0047AB", none⟩

/-- A sample semantic token whose original raw value is a brace reference to
the `leg` primitive. -/
def sampleSemToken : Token :=
  ⟨["wel", "sem", "color", "text", "default"], some "color", some "#0047AB",
   some "\x7bwel.prim.color.leg.blue.500\x7d"⟩

/-- A sample primitive path-to-identifier map as `compose/primitives-collect`
would build it from `sampleLegPrimitive`. -/
def samplePrimMap : AMap :=
  [("wel.prim.color.leg.blue.500", "AccorColorPrimitives.Blue500")]

/-- A token path indicates a hover or pressed interaction-state variant when
the lower-cased dotted path contains `hover` or `pressed`, exactly the test
of the collection filters. -/
def isInteractionState (t : Token) : Bool :=
  containsSub "hover".data (pathLower t) || containsSub "pressed".data (pathLower t)

/-- A token contributes to the merged registry when it passes the semantic
collection filter and its resolved value parses as a color. -/
def collectible (t : Token) : Bool :=
  V4.semFilter t && (toComposeColor t.value).isSome

/-- The semantic names of the contributing tokens of a pass, in processing
sequence. -/
def collectibleNames (ts : List Token) : List String :=
  (ts.filter collectible).map V4.semNameOf

/-- First occurrences of a name sequence that are not in `seen` yet, in
order. -/
def dedupNew (seen : List String) : List String → List String
  | [] => []
  | x :: xs => if x ∈ seen then dedupNew seen xs else x :: dedupNew (x :: seen) xs

/-- The seen-set after processing a name sequence. -/
def seenAfter (seen : List String) : List String → List String
  | [] => seen
  | x :: xs => if x ∈ seen then seenAfter seen xs else seenAfter (x :: seen) xs

/-! ## Behavioral checks of the embedding -/

example : toComposeColor (some "#0047AB") = some "Color(0xFF0047AB)" := by decide
example : toComposeColor (some "#11223344") = some "Color(0x44112233)" := by decide
example : toComposeColor (some "rgba(255,0,0,0.5)") = some "Color(0x80FF0000)" := by decide
example : toComposeColor (some "rgb(0,128,255)") = some "Color(0xFF0080FF)" := by decide
example : toComposeColor (some "\x7bwel.prim.color.blue.500\x7d") = none := by decide
example : toComposeColor (some "hello") = none := by decide
example : toComposeColor (some "xrgb(0,0,0)") = some "Color(0xFF000000)" := by decide
example : toComposeColor none = none := by decide
example : replaceCI "blue".data "Blue".data "skybluedarkBLUE".data = "skyBluedarkBlue".data := by decide
example : BuildTokens.toPrimitiveKotlinName ["wel", "prim", "color", "blue", "500"] =
    "welPrimColorBlue_500" := by decide
example : BuildTokens.toPrimitiveKotlinName ["wel", "prim", "color", "4xl"] =
    "welPrimColor_4xl" := by decide
example : V4.toPrimitiveKotlinName ["wel", "prim", "color", "leg", "blue", "500"] =
    "Blue500" := by decide
example : V4.toPrimitiveKotlinName ["wel", "prim", "color", "grey", "200"] =
    "Grey200" := by decide
example : V4.toPrimitiveKotlinName ["wel", "prim", "color", "500"] = "500" := by decide
example : String.mk (V4.toPascalCaseSemantic "text-hi".data) = "TextHigh" := by decide
example : String.mk (V4.toPascalCaseSemantic "text-default".data) = "TextDefault" := by decide
example : containsSub "hover".data "wel.sem.color.button.hover.bg".data = true := by decide
example : containsSub "hover".data "wel.sem.color.button.bg".data = false := by decide
example : braceInner "\x7bwel.prim.color.blue.500\x7d".data =
    some "wel.prim.color.blue.500".data := by decide
example : braceInner "\x7b\x7d".data = none := by decide
example : braceInner "#0047AB".data = none := by decide
example : V4.semNameOf ⟨["wel", "sem", "color", "text", "default"], some "color",
    some "#0047AB", some "\x7bwel.prim.color.leg.blue.500\x7d"⟩ = "TextDefault" := by decide

/-! ## Supporting lemmas for the color parser -/

/-- The rgba regex cannot match at an offset whose first character is not `r`. -/
lemma matchRgbaFrom_eq_none {cs : List Char} (h : cs.head? ≠ some 'r') :
    matchRgbaFrom cs = none := by
  match cs with
  | [] => rfl
  | [c] => rfl
  | [c1, c2] => rfl
  | c1 :: c2 :: c3 :: rest =>
    have hc : ¬(c1 = 'r' ∧ c2 = 'g' ∧ c3 = 'b') := by
      rintro ⟨h1, -⟩
      exact h (by simp [h1])
    simp [matchRgbaFrom, hc]

/-- The rgba regex search fails on a string that contains no `r` at all. -/
lemma findRgba_eq_none : ∀ {cs : List Char}, (∀ c ∈ cs, c ≠ 'r') → findRgba cs = none
  | [], _ => rfl
  | c :: rest, h => by
    have h1 : matchRgbaFrom (c :: rest) = none := by
      apply matchRgbaFrom_eq_none
      simp only [List.head?_cons, ne_eq, Option.some.injEq]
      exact h c (List.mem_cons_self c rest)
    have h2 : findRgba rest = none :=
      findRgba_eq_none (fun x hx => h x (List.mem_cons_of_mem c hx))
    simp [findRgba, h1, h2]

/-- Hexadecimal digit characters are never the letter `r`. -/
lemma ne_r_of_isHexDigit {c : Char} (h : isHexDigitChar c = true) : c ≠ 'r' := by
  rintro rfl
  exact absurd h (by decide)

/-- C2: an 8-hex-digit `#` literal parses with the last source byte moved in
front as the alpha byte, the leading three bytes kept in red-green-blue
order, and all digits upper-cased. -/
theorem hex8_parses_to_AARRGGBB (d1 d2 d3 d4 d5 d6 d7 d8 : Char)
    (h1 : isHexDigitChar d1 = true) (h2 : isHexDigitChar d2 = true)
    (h3 : isHexDigitChar d3 = true) (h4 : isHexDigitChar d4 = true)
    (h5 : isHexDigitChar d5 = true) (h6 : isHexDigitChar d6 = true)
    (h7 : isHexDigitChar d7 = true) (h8 : isHexDigitChar d8 = true) :
    toComposeColor (some (String.mk ['#', d1, d2, d3, d4, d5, d6, d7, d8])) =
      some (String.mk ("Color(0x".data ++
        [jsToUpper d7, jsToUpper d8, jsToUpper d1, jsToUpper d2, jsToUpper d3,
         jsToUpper d4, jsToUpper d5, jsToUpper d6] ++ ")".data)) := by
  have hfind : findRgba ['#', d1, d2, d3, d4, d5, d6, d7, d8] = none := by
    apply findRgba_eq_none
    intro c hc
    simp only [List.mem_cons, List.not_mem_nil, or_false] at hc
    rcases hc with rfl | rfl | rfl | rfl | rfl | rfl | rfl | rfl | rfl
    · decide
    · exact ne_r_of_isHexDigit h1
    · exact ne_r_of_isHexDigit h2
    · exact ne_r_of_isHexDigit h3
    · exact ne_r_of_isHexDigit h4
    · exact ne_r_of_isHexDigit h5
    · exact ne_r_of_isHexDigit h6
    · exact ne_r_of_isHexDigit h7
    · exact ne_r_of_isHexDigit h8
  simp only [toComposeColor, toComposeColorChars, hfind]
  simp [bracketed, isHex6, isHex8, h1, h2, h3, h4, h5, h6, h7, h8]

/-- Witness for C2 at the specification's own example: `#11223344` parses to
alpha `44`, red `11`, green `22`, blue `33`. -/
theorem hex8_parses_to_AARRGGBB_witness :
    toComposeColor (some "#11223344") = some "Color(0x44112233)" :=
  hex8_parses_to_AARRGGBB '1' '1' '2' '2' '3' '3' '4' '4'
    (by decide) (by decide) (by decide) (by decide)
    (by decide) (by decide) (by decide) (by decide)

/-- The rgba regex search fails when the pattern matches at no offset. -/
lemma findRgba_eq_none_of_offsets :
    ∀ {cs : List Char}, (∀ n, n ≤ cs.length → matchRgbaFrom (cs.drop n) = none) →
      findRgba cs = none
  | [], _ => rfl
  | c :: rest, h => by
    have h0 : matchRgbaFrom (c :: rest) = none := by simpa using h 0 (Nat.zero_le _)
    have hr : findRgba rest = none := findRgba_eq_none_of_offsets (fun n hn => by
      have := h (n + 1) (by simpa using Nat.succ_le_succ hn)
      simpa using this)
    simp [findRgba, h0, hr]

/-- C3, counterexample: `xrgb(0,0,0)` is not an rgba()/rgb() functional
literal (the match is preceded by junk), is not a 6- or 8-digit hex literal,
and is not brace-delimited, yet the parser returns a color rather than
null, because the rgba regex is unanchored. -/
theorem nonliteral_rgb_substring_parses :
    toComposeColor (some "xrgb(0,0,0)") = some "Color(0xFF000000)" ∧
    isRgbaFunctionalLiteral "xrgb(0,0,0)".data = false ∧
    isHex6 "xrgb(0,0,0)".data = false ∧
    isHex8 "xrgb(0,0,0)".data = false ∧
    bracketed "xrgb(0,0,0)".data = false :=
  ⟨by decide, by decide, by decide, by decide, by decide⟩

/-- C3, amended: an input on which the rgba pattern matches at no offset and
that is not a 6- or 8-digit hex literal yields null; in particular every
brace-delimited value yields null. -/
theorem non_color_shapes_yield_none :
    (∀ s : String, (∀ n, n ≤ s.data.length → matchRgbaFrom (s.data.drop n) = none) →
      isHex6 s.data = false → isHex8 s.data = false → toComposeColor (some s) = none) ∧
    (∀ s : String, bracketed s.data = true → toComposeColor (some s) = none) := by
  constructor
  · intro s hno h6 h8
    have hfind : findRgba s.data = none := findRgba_eq_none_of_offsets hno
    by_cases he : s.data.isEmpty <;>
      by_cases hbr : bracketed s.data <;>
        simp [toComposeColor, toComposeColorChars, he, hbr, hfind, h6, h8]
  · intro s hbr
    by_cases he : s.data.isEmpty <;>
      simp [toComposeColor, toComposeColorChars, he, hbr]

/-- Witness for C3's amended theorem: a plain word and a brace-delimited
reference both yield null. -/
theorem non_color_shapes_yield_none_witness :
    toComposeColor (some "hello") = none ∧
    toComposeColor (some "\x7bwel.prim.color.blue.500\x7d") = none :=
  ⟨non_color_shapes_yield_none.1 "hello"
      (by
        intro n hn
        have h5 : n ≤ 5 := by
          have hlen : "hello".data.length = 5 := by decide
          omega
        interval_cases n <;> rfl)
      (by decide) (by decide),
   non_color_shapes_yield_none.2 "\x7bwel.prim.color.blue.500\x7d" (by decide)⟩

/-- A digit character is not regex white space. -/
lemma not_space_of_digit {c : Char} (h : isDigitChar c = true) : isSpaceChar c = false := by
  simp only [isDigitChar, Bool.and_eq_true, decide_eq_true_eq] at h
  simp only [isSpaceChar, Bool.or_eq_false_iff, beq_eq_false_iff_ne, ne_eq,
    Bool.and_eq_false_iff, decide_eq_false_iff_not, not_le]
  omega

/-- A digit-or-dot character is not regex white space. -/
lemma not_space_of_digitDot {c : Char} (h : isDigitDotChar c = true) : isSpaceChar c = false := by
  simp only [isDigitDotChar, Bool.or_eq_true] at h
  rcases h with h | h
  · exact not_space_of_digit h
  · have hc : c = '.' := by simpa using h
    subst hc
    decide

/-- `takeWhile` over a block that satisfies the predicate followed by a
stopper takes exactly the block. -/
lemma takeWhile_stop {p : Char → Bool} :
    ∀ (xs : List Char) (y : Char) (r : List Char),
      (∀ x ∈ xs, p x = true) → p y = false → (xs ++ y :: r).takeWhile p = xs
  | [], y, r, _, hy => by simp [List.takeWhile_cons, hy]
  | a :: as, y, r, hx, hy => by
    have ha : p a = true := hx a (by simp)
    have ih := takeWhile_stop as y r (fun x hx' => hx x (by simp [hx'])) hy
    simp [List.takeWhile_cons, ha, ih]

/-- `dropWhile` over a block that satisfies the predicate followed by a
stopper drops exactly the block. -/
lemma dropWhile_stop {p : Char → Bool} :
    ∀ (xs : List Char) (y : Char) (r : List Char),
      (∀ x ∈ xs, p x = true) → p y = false → (xs ++ y :: r).dropWhile p = y :: r
  | [], y, r, _, hy => by simp [List.dropWhile_cons, hy]
  | a :: as, y, r, hx, hy => by
    have ha : p a = true := hx a (by simp)
    have ih := dropWhile_stop as y r (fun x hx' => hx x (by simp [hx'])) hy
    simp [List.dropWhile_cons, ha, ih]

/-- `dropWhile` is the identity when the head fails the predicate. -/
lemma dropWhile_not_head {p : Char → Bool} {c : Char} {r : List Char} (h : p c = false) :
    (c :: r).dropWhile p = c :: r := by
  simp [List.dropWhile_cons, h]

/-- `takeWhile_stop` with the block exposed in cons-normal form. -/
lemma takeWhile_stop' {p : Char → Bool} (x : Char) (xs : List Char) (y : Char)
    (r : List Char) (hx : ∀ a ∈ x :: xs, p a = true) (hy : p y = false) :
    List.takeWhile p (x :: (xs ++ y :: r)) = x :: xs := by
  have h := takeWhile_stop (x :: xs) y r hx hy
  rw [List.cons_append] at h
  exact h

/-- `dropWhile_stop` with the block exposed in cons-normal form. -/
lemma dropWhile_stop' {p : Char → Bool} (x : Char) (xs : List Char) (y : Char)
    (r : List Char) (hx : ∀ a ∈ x :: xs, p a = true) (hy : p y = false) :
    List.dropWhile p (x :: (xs ++ y :: r)) = y :: r := by
  have h := dropWhile_stop (x :: xs) y r hx hy
  rw [List.cons_append] at h
  exact h

/-- The argument matcher on a canonical four-argument body
`r,g,b,a)` (no white space) captures the four argument strings. -/
lemma matchArgs_rgba {rs gs bs as_ : List Char}
    (hr : rs ≠ []) (hg : gs ≠ []) (hb : bs ≠ []) (ha : as_ ≠ [])
    (hrd : ∀ c ∈ rs, isDigitChar c = true) (hgd : ∀ c ∈ gs, isDigitChar c = true)
    (hbd : ∀ c ∈ bs, isDigitChar c = true) (had : ∀ c ∈ as_, isDigitDotChar c = true) :
    matchArgs (rs ++ ',' :: (gs ++ ',' :: (bs ++ ',' :: (as_ ++ [')'])))) =
      some ((rs, gs, bs, some as_), []) := by
  obtain ⟨rd, rtl, rfl⟩ := List.exists_cons_of_ne_nil hr
  obtain ⟨gd, gtl, rfl⟩ := List.exists_cons_of_ne_nil hg
  obtain ⟨bd, btl, rfl⟩ := List.exists_cons_of_ne_nil hb
  obtain ⟨ad, atl, rfl⟩ := List.exists_cons_of_ne_nil ha
  have hrs := not_space_of_digit (hrd rd (by simp))
  have hgs := not_space_of_digit (hgd gd (by simp))
  have hbs := not_space_of_digit (hbd bd (by simp))
  have has := not_space_of_digitDot (had ad (by simp))
  have hcm : isSpaceChar ',' = false := by decide
  simp only [matchArgs, List.cons_append]
  rw [dropWhile_not_head hrs,
      takeWhile_stop' rd rtl ',' _ hrd (by decide),
      dropWhile_stop' rd rtl ',' _ hrd (by decide)]
  simp only [List.isEmpty_cons, Bool.false_eq_true, if_false, dropWhile_not_head hcm]
  rw [dropWhile_not_head hgs,
      takeWhile_stop' gd gtl ',' _ hgd (by decide),
      dropWhile_stop' gd gtl ',' _ hgd (by decide)]
  simp only [List.isEmpty_cons, Bool.false_eq_true, if_false, dropWhile_not_head hcm]
  rw [dropWhile_not_head hbs,
      takeWhile_stop' bd btl ',' _ hbd (by decide),
      dropWhile_stop' bd btl ',' _ hbd (by decide)]
  simp only [List.isEmpty_cons, Bool.false_eq_true, if_false, dropWhile_not_head hcm]
  rw [dropWhile_not_head has,
      takeWhile_stop' ad atl ')' [] had (by decide),
      dropWhile_stop' ad atl ')' [] had (by decide)]
  simp [dropWhile_not_head (show isSpaceChar ')' = false by decide)]

/-- The argument matcher on a canonical three-argument body `r,g,b)` (no
white space, no alpha) captures the three argument strings. -/
lemma matchArgs_rgb {rs gs bs : List Char}
    (hr : rs ≠ []) (hg : gs ≠ []) (hb : bs ≠ [])
    (hrd : ∀ c ∈ rs, isDigitChar c = true) (hgd : ∀ c ∈ gs, isDigitChar c = true)
    (hbd : ∀ c ∈ bs, isDigitChar c = true) :
    matchArgs (rs ++ ',' :: (gs ++ ',' :: (bs ++ [')']))) =
      some ((rs, gs, bs, none), []) := by
  obtain ⟨rd, rtl, rfl⟩ := List.exists_cons_of_ne_nil hr
  obtain ⟨gd, gtl, rfl⟩ := List.exists_cons_of_ne_nil hg
  obtain ⟨bd, btl, rfl⟩ := List.exists_cons_of_ne_nil hb
  have hrs := not_space_of_digit (hrd rd (by simp))
  have hgs := not_space_of_digit (hgd gd (by simp))
  have hbs := not_space_of_digit (hbd bd (by simp))
  have hcm : isSpaceChar ',' = false := by decide
  simp only [matchArgs, List.cons_append]
  rw [dropWhile_not_head hrs,
      takeWhile_stop' rd rtl ',' _ hrd (by decide),
      dropWhile_stop' rd rtl ',' _ hrd (by decide)]
  simp only [List.isEmpty_cons, Bool.false_eq_true, if_false, dropWhile_not_head hcm]
  rw [dropWhile_not_head hgs,
      takeWhile_stop' gd gtl ',' _ hgd (by decide),
      dropWhile_stop' gd gtl ',' _ hgd (by decide)]
  simp only [List.isEmpty_cons, Bool.false_eq_true, if_false, dropWhile_not_head hcm]
  rw [dropWhile_not_head hbs,
      takeWhile_stop' bd btl ')' [] hbd (by decide),
      dropWhile_stop' bd btl ')' [] hbd (by decide)]
  simp [dropWhile_not_head (show isSpaceChar ')' = false by decide)]

set_option maxRecDepth 4096 in
/-- C7, counterexample: for the in-range alpha fraction
`0.29999999999999999` the binary64 product `parseFloat(a) * 255` is exactly
`76.5`, so the program emits alpha byte `4D` (decimal 77), while the exact
rounding `round(a * 255)` asserted by the original claim gives 76 (which
would render as byte `4C`): the parser does not compute `round(a * 255)` on
every in-range fraction. -/
theorem ieee_alpha_rounding_diverges :
    toComposeColor (some "rgba(255,0,0,0.29999999999999999)") =
      some "Color(0x4DFF0000)" ∧
    parseDec "0.29999999999999999".data = some (29999999999999999, 17) ∧
    29999999999999999 ≤ 10 ^ 17 ∧
    jsRound255 29999999999999999 17 = 76 ∧
    jsHexByte 76 = "4C".data :=
  ⟨by decide, by decide, by decide, by decide, by decide⟩

set_option maxRecDepth 8192 in
/-- C7, amended: a canonical `rgba(r,g,b,a)` literal with integer channels
0–255 and fractional alpha parses to ARGB order with the alpha byte equal
to `Math.round` of the IEEE-754 binary64 product `parseFloat(a) * 255`
(which agrees with the exact `round(a·255)` except on decimal literals of
extreme precision); a canonical `rgb(r,g,b)` literal parses with alpha =
255 (`FF`); and every channel byte is rendered as exactly two upper-case
hexadecimal digits. -/
theorem rgba_literal_parses_argb :
    (∀ (rs gs bs as_ : List Char) (n k v : Nat),
      rs ≠ [] → gs ≠ [] → bs ≠ [] → as_ ≠ [] →
      (∀ c ∈ rs, isDigitChar c = true) → (∀ c ∈ gs, isDigitChar c = true) →
      (∀ c ∈ bs, isDigitChar c = true) → (∀ c ∈ as_, isDigitDotChar c = true) →
      natOfDigits rs ≤ 255 → natOfDigits gs ≤ 255 → natOfDigits bs ≤ 255 →
      parseDec as_ = some (n, k) → n ≤ 10 ^ k →
      jsMathRound (f64Mul255 (f64OfRat n (10 ^ k))) = some v →
      toComposeColor (some (String.mk ("rgba(".data ++
          (rs ++ ',' :: (gs ++ ',' :: (bs ++ ',' :: (as_ ++ [')']))))))) =
        some (String.mk ("Color(0x".data ++ jsHexByte v ++
          jsHexByte (natOfDigits rs) ++ jsHexByte (natOfDigits gs) ++
          jsHexByte (natOfDigits bs) ++ ")".data))) ∧
    (∀ (rs gs bs : List Char),
      rs ≠ [] → gs ≠ [] → bs ≠ [] →
      (∀ c ∈ rs, isDigitChar c = true) → (∀ c ∈ gs, isDigitChar c = true) →
      (∀ c ∈ bs, isDigitChar c = true) →
      natOfDigits rs ≤ 255 → natOfDigits gs ≤ 255 → natOfDigits bs ≤ 255 →
      toComposeColor (some (String.mk ("rgb(".data ++
          (rs ++ ',' :: (gs ++ ',' :: (bs ++ [')'])))))) =
        some (String.mk ("Color(0x".data ++ jsHexByte 255 ++
          jsHexByte (natOfDigits rs) ++ jsHexByte (natOfDigits gs) ++
          jsHexByte (natOfDigits bs) ++ ")".data))) ∧
    (∀ v : Nat, v ≤ 255 → (jsHexByte v).length = 2 ∧
      ∀ c ∈ jsHexByte v, (isDigitChar c || isAsciiUpper c) = true) := by
  refine ⟨?_, ?_, by decide⟩
  · intro rs gs bs as_ n k v hr hg hb ha hrd hgd hbd had hr2 hg2 hb2 hpd hn1 hie
    have hargs := matchArgs_rgba hr hg hb ha hrd hgd hbd had
    have hmatch : matchRgbaFrom ('r' :: 'g' :: 'b' :: 'a' :: '(' ::
        (rs ++ ',' :: (gs ++ ',' :: (bs ++ ',' :: (as_ ++ [')']))))) =
        some ((rs, gs, bs, some as_), []) := by
      simp [matchRgbaFrom, hargs]
    have hfind : findRgba ('r' :: 'g' :: 'b' :: 'a' :: '(' ::
        (rs ++ ',' :: (gs ++ ',' :: (bs ++ ',' :: (as_ ++ [')']))))) =
        some (rs, gs, bs, some as_) := by
      simp [findRgba, hmatch]
    show Option.map String.mk (toComposeColorChars ('r' :: 'g' :: 'b' :: 'a' :: '(' ::
        (rs ++ ',' :: (gs ++ ',' :: (bs ++ ',' :: (as_ ++ [')'])))))) = _
    unfold toComposeColorChars
    rw [hfind]
    simp only [rgbaAlphaHex, parseFloat64, hpd, hie]
    simp [bracketed, List.append_assoc]
  · intro rs gs bs hr hg hb hrd hgd hbd hr2 hg2 hb2
    have hargs := matchArgs_rgb hr hg hb hrd hgd hbd
    have hmatch : matchRgbaFrom ('r' :: 'g' :: 'b' :: '(' ::
        (rs ++ ',' :: (gs ++ ',' :: (bs ++ [')'])))) =
        some ((rs, gs, bs, none), []) := by
      simp [matchRgbaFrom, hargs]
    have hfind : findRgba ('r' :: 'g' :: 'b' :: '(' ::
        (rs ++ ',' :: (gs ++ ',' :: (bs ++ [')'])))) =
        some (rs, gs, bs, none) := by
      simp [findRgba, hmatch]
    show Option.map String.mk (toComposeColorChars ('r' :: 'g' :: 'b' :: '(' ::
        (rs ++ ',' :: (gs ++ ',' :: (bs ++ [')']))))) = _
    unfold toComposeColorChars
    rw [hfind]
    simp only [rgbaAlphaHex]
    simp [bracketed, List.append_assoc]

set_option maxRecDepth 4096 in
/-- Witness for C7's amended theorem at the specification's examples:
`rgba(255,0,0,0.5)` yields alpha 80 (decimal 128, where the binary64
product is exactly 127.5) with red FF, and `rgb(0,128,255)` defaults alpha
to FF. -/
theorem rgba_literal_parses_argb_witness :
    toComposeColor (some "rgba(255,0,0,0.5)") = some "Color(0x80FF0000)" ∧
    toComposeColor (some "rgb(0,128,255)") = some "Color(0xFF0080FF)" := by
  constructor
  · exact rgba_literal_parses_argb.1 ['2', '5', '5'] ['0'] ['0'] ['0', '.', '5'] 5 1 128
      (by decide) (by decide) (by decide) (by decide) (by decide) (by decide)
      (by decide) (by decide) (by decide) (by decide) (by decide) (by decide) (by decide)
      (by decide)
  · exact rgba_literal_parses_argb.2.1 ['0'] ['1', '2', '8'] ['2', '5', '5']
      (by decide) (by decide) (by decide) (by decide) (by decide) (by decide)
      (by decide) (by decide) (by decide)

/-- C4: an identifier of the merged registry with a light value and no dark
value is emitted with its dark value equal to the light value. -/
theorem single_mode_dark_inherits_light (reg : List V4.SemEntry) (e : V4.SemEntry)
    (l : String) (he : e ∈ reg) (hl : e.light = some l) (hne : l ≠ "")
    (hd : e.dark = none) :
    (e.name, l, l) ∈ V4.mergedEntries reg := by
  have hL : V4.emitLight e = l := by simp [V4.emitLight, hl, hne]
  have hD : V4.emitDark e = l := by simp [V4.emitDark, hd, hL]
  have hs : e ∈ V4.sortByOrder reg :=
    ((List.perm_insertionSort _ reg).mem_iff).mpr he
  have hm : (e.name, V4.emitLight e, V4.emitDark e) ∈
      List.map (fun e => (e.name, V4.emitLight e, V4.emitDark e)) (V4.sortByOrder reg) :=
    List.mem_map_of_mem (fun e => (e.name, V4.emitLight e, V4.emitDark e)) hs
  rw [hL, hD] at hm
  exact hm

/-- Witness for C4: a light-only entry is emitted with dark = light. -/
theorem single_mode_dark_inherits_light_witness :
    ("TextDefault", "Color(0xFF0047AB)", "Color(0xFF0047AB)") ∈
      V4.mergedEntries [sampleLightOnly] :=
  single_mode_dark_inherits_light [sampleLightOnly] sampleLightOnly "Color(0xFF0047AB)"
    (by decide) (by decide) (by decide) (by decide)

/-- C5: an identifier of the merged registry with a dark value and no light
value is still emitted, and its emitted light value is the sentinel
`Color.Unspecified`. -/
theorem dark_only_light_is_unspecified (reg : List V4.SemEntry) (e : V4.SemEntry)
    (d : String) (he : e ∈ reg) (hl : e.light = none) (hd : e.dark = some d) :
    (e.name, "Color.Unspecified", V4.emitDark e) ∈ V4.mergedEntries reg := by
  have hL : V4.emitLight e = "Color.Unspecified" := by simp [V4.emitLight, hl]
  have hs : e ∈ V4.sortByOrder reg :=
    ((List.perm_insertionSort _ reg).mem_iff).mpr he
  have hm : (e.name, V4.emitLight e, V4.emitDark e) ∈
      List.map (fun e => (e.name, V4.emitLight e, V4.emitDark e)) (V4.sortByOrder reg) :=
    List.mem_map_of_mem (fun e => (e.name, V4.emitLight e, V4.emitDark e)) hs
  rw [hL] at hm
  exact hm

/-- Witness for C5: a dark-only entry is emitted with the unspecified light
sentinel. -/
theorem dark_only_light_is_unspecified_witness :
    ("Accent", "Color.Unspecified", "Color(0xFF112233)") ∈
      V4.mergedEntries [sampleDarkOnly] :=
  dark_only_light_is_unspecified [sampleDarkOnly] sampleDarkOnly "Color(0xFF112233)"
    (by decide) (by decide) (by decide)

namespace V4

lemma getMode_setMode (e : SemEntry) (m : Mode) (v : String) :
    getMode (setMode e m v) m = some v := by
  cases m <;> rfl

lemma name_setMode (e : SemEntry) (m : Mode) (v : String) :
    (setMode e m v).name = e.name := by
  cases m <;> rfl

lemma find?_append_none {α : Type} {p : α → Bool} {l1 l2 : List α}
    (h : l1.find? p = none) : (l1 ++ l2).find? p = l2.find? p := by
  induction l1 with
  | nil => simp
  | cons a l ih =>
    by_cases hp : p a
    · simp [List.find?_cons_of_pos _ hp] at h
    · have h' : l.find? p = none := by
        simpa [List.find?_cons_of_neg _ hp] using h
      simp [List.find?_cons_of_neg, hp, ih h']

lemma regFind_regUpd {reg : List SemEntry} {n : String} (m : Mode) (v : String)
    (h : reg.any (fun e => e.name == n) = true) :
    ∃ e, regFind (regUpd reg n m v) n = some e ∧ getMode e m = some v := by
  induction reg with
  | nil => simp at h
  | cons e rest ih =>
    by_cases hn : (e.name == n) = true
    · refine ⟨setMode e m v, ?_, getMode_setMode e m v⟩
      have hp : ((setMode e m v).name == n) = true := by rw [name_setMode]; exact hn
      simp only [regUpd, hn, if_true, regFind]
      exact List.find?_cons_of_pos _ hp
    · have h' : rest.any (fun e => e.name == n) = true := by
        rcases List.any_eq_true.mp h with ⟨x, hx, hpx⟩
        rcases List.mem_cons.mp hx with rfl | hx'
        · exact absurd hpx hn
        · exact List.any_eq_true.mpr ⟨x, hx', hpx⟩
      obtain ⟨e', h1, h2⟩ := ih h'
      refine ⟨e', ?_, h2⟩
      have hn' : (e.name == n) = false := by simpa using hn
      simp only [regUpd, hn', Bool.false_eq_true, if_false, regFind]
      simpa [regFind, hn] using h1

lemma regFind_regSet (reg : List SemEntry) (n : String) (m : Mode) (v : String) :
    ∃ e, regFind (regSet reg n m v) n = some e ∧ getMode e m = some v := by
  by_cases h : reg.any (fun e => e.name == n) = true
  · rw [regSet, if_pos h]
    exact regFind_regUpd m v h
  · rw [regSet, if_neg h]
    have hall : reg.find? (fun e => e.name == n) = none := by
      rw [List.find?_eq_none]
      intro x hx hpx
      exact h (List.any_eq_true.mpr ⟨x, hx, hpx⟩)
    have hp : ((setMode ⟨n, reg.length, none, none⟩ m v).name == n) = true := by
      rw [name_setMode]
      exact beq_self_eq_true n
    refine ⟨setMode ⟨n, reg.length, none, none⟩ m v, ?_, getMode_setMode _ m v⟩
    rw [regFind, find?_append_none hall]
    exact List.find?_cons_of_pos _ hp

lemma mem_regUpd_of_ne {reg : List SemEntry} {n : String} {m : Mode} {v : String}
    {e : SemEntry} (he : e ∈ reg) (hne : ¬e.name = n) : e ∈ regUpd reg n m v := by
  induction reg with
  | nil => simpa using he
  | cons a rest ih =>
    rcases List.mem_cons.mp he with rfl | he'
    · have hna : (e.name == n) = false := by simpa using hne
      simp [regUpd, hna]
    · by_cases ha : (a.name == n) = true
      · simp [regUpd, ha, he']
      · have ha' : (a.name == n) = false := by simpa using ha
        simp only [regUpd, ha', Bool.false_eq_true, if_false]
        exact List.mem_cons_of_mem a (ih he')

lemma mem_regSet_of_ne {reg : List SemEntry} {n : String} {m : Mode} {v : String}
    {e : SemEntry} (he : e ∈ reg) (hne : ¬e.name = n) : e ∈ regSet reg n m v := by
  rw [regSet]
  by_cases h : reg.any (fun x => x.name == n) = true
  · rw [if_pos h]
    exact mem_regUpd_of_ne he hne
  · rw [if_neg h]
    exact List.mem_append_left _ he

end V4


/-- C1: a semantic token that passes the collection filter and whose resolved
value parses as a color is stored under its semantic name with the value
obtained by looking up its original brace-reference path first in the
primitive map and then in the brandbook map; when the original value is not
a brace reference or the path is in neither map (or the mapped value is
falsy), the resolved literal color is stored instead; entries for other
names are untouched. -/
theorem semantic_value_prefers_primitive_ref (pm bm : AMap) (m : V4.Mode)
    (reg : List V4.SemEntry) (t : Token) (c : String)
    (hf : V4.semFilter t = true) (hc : toComposeColor t.value = some c) :
    (∃ e, V4.regFind (V4.collectSemStep pm bm m reg t) (V4.semNameOf t) = some e ∧
      V4.getMode e m = some
        (match t.original.bind (fun ov => braceInner ov.data) with
         | some inner =>
           (match mget pm (String.mk inner) with
            | some r => if r == "" then c else r
            | none =>
              match mget bm (String.mk inner) with
              | some r => if r == "" then c else r
              | none => c)
         | none => c)) ∧
    ∀ e ∈ reg, e.name = V4.semNameOf t ∨ e ∈ V4.collectSemStep pm bm m reg t := by
  have hval : (match V4.getPrimitiveRef pm bm t with
       | some r => if r == "" then c else r
       | none => c) =
      (match t.original.bind (fun ov => braceInner ov.data) with
       | some inner =>
         (match mget pm (String.mk inner) with
          | some r => if r == "" then c else r
          | none =>
            match mget bm (String.mk inner) with
            | some r => if r == "" then c else r
            | none => c)
       | none => c) := by
    rcases ho : t.original with - | ov
    · simp [V4.getPrimitiveRef, ho]
    · rcases hb : braceInner ov.data with - | inner
      · simp [V4.getPrimitiveRef, ho, hb]
      · rcases hpm : mget pm (String.mk inner) with - | r
        · rcases hbm : mget bm (String.mk inner) with - | r
          · simp [V4.getPrimitiveRef, mhas, ho, hb, hpm, hbm]
          · simp [V4.getPrimitiveRef, mhas, ho, hb, hpm, hbm]
        · simp [V4.getPrimitiveRef, mhas, ho, hb, hpm]
  have hstep : V4.collectSemStep pm bm m reg t =
      V4.regSet reg (V4.semNameOf t) m
        (match V4.getPrimitiveRef pm bm t with
         | some r => if r == "" then c else r
         | none => c) := by
    simp [V4.collectSemStep, hf, hc]
  rw [hstep]
  constructor
  · obtain ⟨e, h1, h2⟩ := V4.regFind_regSet reg (V4.semNameOf t) m _
    exact ⟨e, h1, by rw [h2, hval]⟩
  · intro e he
    by_cases hname : e.name = V4.semNameOf t
    · exact Or.inl hname
    · exact Or.inr (V4.mem_regSet_of_ne he hname)

/-- Witness for C1: the sample semantic token resolves through the primitive
map to the `leg` primitive's identifier rather than its literal color. -/
theorem semantic_value_prefers_primitive_ref_witness :
    (∃ e, V4.regFind (V4.collectSemStep samplePrimMap [] V4.Mode.light [] sampleSemToken)
        (V4.semNameOf sampleSemToken) = some e ∧
      V4.getMode e V4.Mode.light = some "AccorColorPrimitives.Blue500") ∧
    ∀ e ∈ ([] : List V4.SemEntry), e.name = V4.semNameOf sampleSemToken ∨
      e ∈ V4.collectSemStep samplePrimMap [] V4.Mode.light [] sampleSemToken :=
  semantic_value_prefers_primitive_ref samplePrimMap [] V4.Mode.light [] sampleSemToken
    "Color(0xFF0047AB)" (by decide) (by decide)


/-- C9: tokens with a hover or pressed interaction state are excluded from
semantic collection entirely: a collection pass computes exactly the same
merged registry as the pass over the token list with those tokens removed
(hence nothing derived from them reaches the registry or the emitted
semantics document). -/
theorem hover_pressed_excluded (pm bm : AMap) (m : V4.Mode) (ts : List Token)
    (reg : List V4.SemEntry) :
    V4.collectSem pm bm m ts reg =
      V4.collectSem pm bm m (ts.filter (fun t => !isInteractionState t)) reg := by
  induction ts generalizing reg with
  | nil => rfl
  | cons t ts ih =>
    by_cases hH : isInteractionState t = true
    · have hf : V4.semFilter t = false := by
        simp only [isInteractionState, Bool.or_eq_true] at hH
        rcases hH with h | h <;> simp [V4.semFilter, h]
      have hstep : V4.collectSemStep pm bm m reg t = reg := by
        simp [V4.collectSemStep, hf]
      have hfilter : (t :: ts).filter (fun t => !isInteractionState t) =
          ts.filter (fun t => !isInteractionState t) := by
        simp [List.filter_cons, hH]
      rw [hfilter,
        show V4.collectSem pm bm m (t :: ts) reg =
          V4.collectSem pm bm m ts (V4.collectSemStep pm bm m reg t) from rfl,
        hstep]
      exact ih reg
    · have hfilter : (t :: ts).filter (fun t => !isInteractionState t) =
          t :: ts.filter (fun t => !isInteractionState t) := by
        simp [List.filter_cons, hH]
      rw [hfilter,
        show V4.collectSem pm bm m (t :: ts) reg =
          V4.collectSem pm bm m ts (V4.collectSemStep pm bm m reg t) from rfl,
        show V4.collectSem pm bm m (t :: ts.filter (fun t => !isInteractionState t)) reg =
          V4.collectSem pm bm m (ts.filter (fun t => !isInteractionState t))
            (V4.collectSemStep pm bm m reg t) from rfl]
      exact ih (V4.collectSemStep pm bm m reg t)

/-- C8, counterexample: the PascalCase primitive normalizer of the most
complete variant passes all-digit segments through unprefixed, so a path
whose cleaned name is a bare number yields an identifier that begins with a
digit. -/
theorem pascal_digit_segment_unprefixed :
    V4.toPrimitiveKotlinName ["wel", "prim", "color", "500"] = "500" ∧
    (V4.toPrimitiveKotlinName ["wel", "prim", "color", "500"]).data.head? = some '5' ∧
    isDigitChar '5' = true :=
  ⟨by decide, by decide, by decide⟩

lemma head_replTempCS (t : List Char) :
    (BuildTokens.replTempCS ('_' :: t)).head? = some '_' := by
  rw [BuildTokens.replTempCS]
  by_cases h : "-temp".data.isSuffixOf ('_' :: t) = true
  · rw [if_pos h]
    have hsuf : "-temp".data <:+ ('_' :: t) := by
      rwa [List.isSuffixOf_iff_suffix] at h
    have hlen : 5 ≤ ('_' :: t).length := by
      have hh := hsuf.length_le
      simpa using hh
    have hne : ('_' :: t).length ≠ 5 := by
      intro hl
      have h5 : ("-temp".data).length = 5 := by decide
      have heq : "-temp".data = '_' :: t := hsuf.eq_of_length (by rw [h5, hl])
      have hhead : '-' = '_' := by
        have hc := congrArg List.head? heq
        simpa using hc
      exact absurd hhead (by decide)
    obtain ⟨k, hk⟩ : ∃ k, ('_' :: t).length - 5 = k + 1 := by
      refine ⟨('_' :: t).length - 6, ?_⟩
      simp only [List.length_cons] at hlen hne ⊢
      omega
    rw [hk, List.take_succ_cons]
    rfl
  · rw [if_neg h]
    rfl

lemma camelHyphen_underscore_cons (t : List Char) :
    BuildTokens.camelHyphen ('_' :: t) = '_' :: BuildTokens.camelHyphenAux t.length t := rfl

lemma primPiece_head_underscore (idx : Nat) (d : Char) (rest : List Char)
    (hd : isDigitChar d = true) :
    (BuildTokens.primPiece idx (d :: rest)).head? = some '_' := by
  rw [BuildTokens.primPiece]
  simp only [hd, if_true]
  have h2 := head_replTempCS (d :: rest)
  obtain ⟨t2, ht2⟩ : ∃ t2, BuildTokens.replTempCS ('_' :: d :: rest) = '_' :: t2 := by
    cases hcase : BuildTokens.replTempCS ('_' :: d :: rest) with
    | nil => rw [hcase] at h2; simp at h2
    | cons c t2 =>
      rw [hcase] at h2
      simp only [List.head?_cons, Option.some.injEq] at h2
      exact ⟨t2, by rw [h2]⟩
  rw [ht2, camelHyphen_underscore_cons]
  simp [jsToLower, jsToUpper]

/-- C8, amended: in the `build-tokens.js` camelCase normalizer a segment
that begins with a digit is given an underscore prefix, so the piece it
contributes never begins with a digit, and a path whose first segment
begins with a digit yields an identifier starting with an underscore; the
PascalCase normalizers of the later variants leave all-digit segments
unchanged (see the counterexample). -/
theorem camel_digit_segment_underscored :
    (∀ (idx : Nat) (d : Char) (rest : List Char), isDigitChar d = true →
      (BuildTokens.primPiece idx (d :: rest)).head? = some '_') ∧
    (∀ (p0 : String) (ps : List String) (d : Char) (rest : List Char),
      p0.data = d :: rest → isDigitChar d = true →
      (BuildTokens.toPrimitiveKotlinName (p0 :: ps)).data.head? = some '_') := by
  refine ⟨primPiece_head_underscore, ?_⟩
  intro p0 ps d rest hp0 hd
  rw [BuildTokens.toPrimitiveKotlinName]
  have hpc := primPiece_head_underscore 0 d rest hd
  rw [← hp0] at hpc
  obtain ⟨t0, ht0⟩ : ∃ t0, BuildTokens.primPiece 0 p0.data = '_' :: t0 := by
    cases hcase : BuildTokens.primPiece 0 p0.data with
    | nil => rw [hcase] at hpc; simp at hpc
    | cons c t0 =>
      rw [hcase] at hpc
      simp only [List.head?_cons, Option.some.injEq] at hpc
      exact ⟨t0, by rw [hpc]⟩
  simp only [List.mapIdx_cons, ht0]
  rfl

/-- Witness for C8's amended theorem at concrete inputs: the segment `4xl`
yields an underscore-prefixed piece, and a path starting with `500` yields
an identifier starting with an underscore. -/
theorem camel_digit_segment_underscored_witness :
    (BuildTokens.primPiece 1 ('4' :: "xl".data)).head? = some '_' ∧
    (BuildTokens.toPrimitiveKotlinName ["500", "blue"]).data.head? = some '_' :=
  ⟨camel_digit_segment_underscored.1 1 '4' "xl".data (by decide),
   camel_digit_segment_underscored.2 "500" ["blue"] '5' "00".data (by decide) (by decide)⟩

lemma mget_mset_self (m : AMap) (k v : String) : mget (mset m k v) k = some v := by
  induction m with
  | nil => simp [mset, mget]
  | cons p rest ih =>
    by_cases h : (p.1 == k) = true
    · simp [mset, h, mget]
    · simp only [mset, h, Bool.false_eq_true, if_false]
      simpa [mget, h] using ih

lemma mget_mset_ne (m : AMap) (k v k' : String) (hne : ¬k = k') :
    mget (mset m k v) k' = mget m k' := by
  have hkk : (k == k') = false := by simpa using hne
  induction m with
  | nil => simp [mset, mget, hkk]
  | cons p rest ih =>
    by_cases h : (p.1 == k) = true
    · have hpk : p.1 = k := by simpa using h
      have hp : (p.1 == k') = false := by simpa [hpk] using hne
      simp [mset, h, mget, hkk, hp]
    · by_cases hp : (p.1 == k') = true
      · simp [mset, h, mget, hp]
      · simp only [mset, h, Bool.false_eq_true, if_false]
        simpa [mget, hp] using ih

lemma mhas_mset_mono (m : AMap) (k v k' : String) (h : mhas m k' = true) :
    mhas (mset m k v) k' = true := by
  by_cases hk : k = k'
  · subst hk
    simp [mhas, mget_mset_self]
  · rwa [mhas, mget_mset_ne m k v k' hk]

lemma mhas_collectPrimitives_mono (ts : List Token) (m : AMap) (k : String)
    (h : mhas m k = true) : mhas (V4.collectPrimitives ts m) k = true := by
  induction ts generalizing m with
  | nil => exact h
  | cons t ts ih =>
    show mhas (V4.collectPrimitives ts _) k = true
    by_cases ht : (t.tkType == some "color") = true
    · simp only [V4.collectPrimitives, List.foldl_cons, ht, if_true]
      exact ih _ (mhas_mset_mono _ _ _ _ h)
    · simp only [V4.collectPrimitives, List.foldl_cons, ht, Bool.false_eq_true, if_false]
      exact ih _ h

/-- C10: the primitive path map is populated from every color token with no
exclusion, while the emitted primitives object never contains anything from
a token whose path has the segment `leg`; consequently, for the sample
input, the merged semantics document references the identifier
`AccorColorPrimitives.Blue500` even though the emitted primitives object
for the same input is empty. -/
theorem leg_primitives_mapped_but_not_emitted :
    (∀ (ts : List Token) (m : AMap) (t : Token), t ∈ ts → t.tkType = some "color" →
      mhas (V4.collectPrimitives ts m) (pathKey t) = true) ∧
    (∀ ts : List Token, V4.composePrimitives ts =
      V4.composePrimitives (ts.filter (fun t => !(t.path.contains "leg")))) ∧
    (mget (V4.collectPrimitives [sampleLegPrimitive] []) "wel.prim.color.leg.blue.500" =
        some "AccorColorPrimitives.Blue500" ∧
      V4.composePrimitives [sampleLegPrimitive] = [] ∧
      V4.mergedEntries (V4.collectSemStep (V4.collectPrimitives [sampleLegPrimitive] []) []
          V4.Mode.light [] sampleSemToken) =
        [("TextDefault", "AccorColorPrimitives.Blue500", "AccorColorPrimitives.Blue500")]) := by
  refine ⟨?_, ?_, by decide, by decide, by decide⟩
  · intro ts m t hmem htype
    induction ts generalizing m with
    | nil => simp at hmem
    | cons s ts ih =>
      rcases List.mem_cons.mp hmem with rfl | hmem'
      · have ht : (t.tkType == some "color") = true := by simp [htype]
        simp only [V4.collectPrimitives, List.foldl_cons, ht, if_true]
        exact mhas_collectPrimitives_mono ts _ _ (by simp [mhas, mget_mset_self])
      · by_cases hs : (s.tkType == some "color") = true
        · simp only [V4.collectPrimitives, List.foldl_cons, hs, if_true]
          exact ih _ hmem'
        · simp only [V4.collectPrimitives, List.foldl_cons, hs, Bool.false_eq_true, if_false]
          exact ih m hmem'
  · intro ts
    have hfe : (ts.filter (fun t => !(t.path.contains "leg"))).filter V4.primFilter =
        ts.filter V4.primFilter := by
      rw [List.filter_filter]
      apply List.filter_congr
      intro t _
      by_cases h : t.path.contains "leg" <;> simp [V4.primFilter, h]
    unfold V4.composePrimitives
    rw [hfe]

/-- Witness for C10's universally quantified parts at the sample input: the
`leg` primitive is in the path map, and its color-typed token list maps it. -/
theorem leg_primitives_mapped_but_not_emitted_witness :
    mhas (V4.collectPrimitives [sampleLegPrimitive] []) (pathKey sampleLegPrimitive) = true :=
  leg_primitives_mapped_but_not_emitted.1 [sampleLegPrimitive] [] sampleLegPrimitive
    (by decide) (by decide)


lemma mem_seenAfter {a : String} :
    ∀ {xs seen : List String}, a ∈ seenAfter seen xs ↔ a ∈ seen ∨ a ∈ xs := by
  intro xs
  induction xs with
  | nil => intro seen; simp [seenAfter]
  | cons x xs ih =>
    intro seen
    by_cases h : x ∈ seen
    · rw [seenAfter, if_pos h, ih]
      simp only [List.mem_cons]
      constructor
      · rintro (hs | hx) <;> tauto
      · rintro (hs | rfl | hx) <;> tauto
    · rw [seenAfter, if_neg h, ih]
      simp only [List.mem_cons]
      tauto

lemma dedupNew_congr {s1 s2 : List String} (h : ∀ a, a ∈ s1 ↔ a ∈ s2) :
    ∀ xs, dedupNew s1 xs = dedupNew s2 xs := by
  intro xs
  induction xs generalizing s1 s2 with
  | nil => rfl
  | cons x xs ih =>
    by_cases hx : x ∈ s1
    · rw [dedupNew, if_pos hx, dedupNew, if_pos ((h x).mp hx)]
      exact ih h
    · rw [dedupNew, if_neg hx, dedupNew, if_neg (fun hc => hx ((h x).mpr hc))]
      congr 1
      exact ih (fun a => by simp only [List.mem_cons]; rw [h a])

lemma dedupNew_append (xs : List String) :
    ∀ (seen ys : List String),
      dedupNew seen (xs ++ ys) = dedupNew seen xs ++ dedupNew (seenAfter seen xs) ys := by
  induction xs with
  | nil => intro seen ys; simp [dedupNew, seenAfter]
  | cons x xs ih =>
    intro seen ys
    by_cases h : x ∈ seen
    · rw [List.cons_append, dedupNew, if_pos h, dedupNew, if_pos h, seenAfter, if_pos h]
      exact ih seen ys
    · rw [List.cons_append, dedupNew, if_neg h, dedupNew, if_neg h, seenAfter, if_neg h]
      rw [List.cons_append]
      congr 1
      exact ih (x :: seen) ys

lemma mem_dedupNew {a : String} :
    ∀ {xs seen : List String}, a ∈ dedupNew seen xs ↔ a ∈ xs ∧ ¬a ∈ seen := by
  intro xs
  induction xs with
  | nil => intro seen; simp [dedupNew]
  | cons x xs ih =>
    intro seen
    by_cases h : x ∈ seen
    · rw [dedupNew, if_pos h, ih]
      simp only [List.mem_cons]
      constructor
      · rintro ⟨hx, hs⟩; exact ⟨Or.inr hx, hs⟩
      · rintro ⟨hx | hx, hs⟩
        · exact absurd (hx ▸ h) hs
        · exact ⟨hx, hs⟩
    · rw [dedupNew, if_neg h]
      simp only [List.mem_cons, ih]
      constructor
      · rintro (rfl | ⟨hx, hs⟩)
        · exact ⟨Or.inl rfl, h⟩
        · exact ⟨Or.inr hx, fun hc => hs (by simp [hc])⟩
      · rintro ⟨rfl | hx, hs⟩
        · exact Or.inl rfl
        · by_cases hax : a = x
          · exact Or.inl hax
          · exact Or.inr ⟨hx, by simp [hax, hs]⟩

namespace V4

lemma order_setMode (e : SemEntry) (m : Mode) (v : String) :
    (setMode e m v).order = e.order := by
  cases m <;> rfl

lemma names_regUpd (reg : List SemEntry) (n : String) (m : Mode) (v : String) :
    (regUpd reg n m v).map (fun e => e.name) = reg.map (fun e => e.name) := by
  induction reg with
  | nil => rfl
  | cons e rest ih =>
    by_cases h : (e.name == n) = true
    · simp [regUpd, h, name_setMode]
    · simp only [regUpd, h, Bool.false_eq_true, if_false, List.map_cons]
      rw [ih]

lemma orders_regUpd (reg : List SemEntry) (n : String) (m : Mode) (v : String) :
    (regUpd reg n m v).map (fun e => e.order) = reg.map (fun e => e.order) := by
  induction reg with
  | nil => rfl
  | cons e rest ih =>
    by_cases h : (e.name == n) = true
    · simp [regUpd, h, order_setMode]
    · simp only [regUpd, h, Bool.false_eq_true, if_false, List.map_cons]
      rw [ih]

lemma length_regUpd (reg : List SemEntry) (n : String) (m : Mode) (v : String) :
    (regUpd reg n m v).length = reg.length := by
  induction reg with
  | nil => rfl
  | cons e rest ih =>
    by_cases h : (e.name == n) = true
    · simp [regUpd, h]
    · simp only [regUpd, h, Bool.false_eq_true, if_false, List.length_cons]
      rw [ih]

lemma any_name_iff (reg : List SemEntry) (n : String) :
    reg.any (fun e => e.name == n) = true ↔ n ∈ reg.map (fun e => e.name) := by
  simp [List.any_eq_true, List.mem_map]

lemma names_regSet (reg : List SemEntry) (n : String) (m : Mode) (v : String) :
    (regSet reg n m v).map (fun e => e.name) =
      if n ∈ reg.map (fun e => e.name) then reg.map (fun e => e.name)
      else reg.map (fun e => e.name) ++ [n] := by
  rw [regSet]
  by_cases h : reg.any (fun e => e.name == n) = true
  · rw [if_pos h, if_pos ((any_name_iff reg n).mp h), names_regUpd]
  · rw [if_neg h, if_neg (fun hc => h ((any_name_iff reg n).mpr hc))]
    simp [name_setMode]

lemma orders_regSet (reg : List SemEntry) (n : String) (m : Mode) (v : String)
    (h : reg.map (fun e => e.order) = List.range reg.length) :
    (regSet reg n m v).map (fun e => e.order) =
      List.range (regSet reg n m v).length := by
  rw [regSet]
  by_cases ha : reg.any (fun e => e.name == n) = true
  · rw [if_pos ha, orders_regUpd, length_regUpd]
    exact h
  · rw [if_neg ha, List.map_append, h]
    simp [order_setMode, List.range_succ]

lemma collectSemStep_eq_reg {pm bm : AMap} {m : Mode} {reg : List SemEntry} {t : Token}
    (h : collectible t = false) : collectSemStep pm bm m reg t = reg := by
  by_cases hf : semFilter t = true
  · simp only [collectSemStep, hf, if_true]
    cases hc : toComposeColor t.value with
    | none => simp [hc]
    | some c =>
      rw [collectible, hf, hc] at h
      simp at h
  · simp [collectSemStep, hf]

lemma collectSemStep_eq_regSet {pm bm : AMap} {m : Mode} {reg : List SemEntry} {t : Token}
    {c : String} (hf : semFilter t = true) (hc : toComposeColor t.value = some c) :
    collectSemStep pm bm m reg t = regSet reg (semNameOf t) m
      (match getPrimitiveRef pm bm t with
       | some r => if r == "" then c else r
       | none => c) := by
  simp [collectSemStep, hf, hc]

lemma names_collectSem (pm bm : AMap) (m : Mode) :
    ∀ (ts : List Token) (reg : List SemEntry),
      (collectSem pm bm m ts reg).map (fun e => e.name) =
        reg.map (fun e => e.name) ++
          dedupNew (reg.map (fun e => e.name)) (collectibleNames ts) := by
  intro ts
  induction ts with
  | nil => intro reg; simp [collectSem, collectibleNames, dedupNew]
  | cons t ts ih =>
    intro reg
    have hcons : collectSem pm bm m (t :: ts) reg =
        collectSem pm bm m ts (collectSemStep pm bm m reg t) := rfl
    by_cases hcol : collectible t = true
    · have hf : semFilter t = true := by
        simp only [collectible, Bool.and_eq_true] at hcol
        exact hcol.1
      obtain ⟨c, hc⟩ : ∃ c, toComposeColor t.value = some c := by
        simp only [collectible, Bool.and_eq_true, Option.isSome_iff_exists] at hcol
        exact hcol.2
      have hnames : collectibleNames (t :: ts) = semNameOf t :: collectibleNames ts := by
        simp [collectibleNames, List.filter_cons, hcol]
      rw [hcons, ih, collectSemStep_eq_regSet hf hc, names_regSet, hnames]
      by_cases hmem : semNameOf t ∈ reg.map (fun e => e.name)
      · rw [if_pos hmem, dedupNew, if_pos hmem]
      · rw [if_neg hmem, dedupNew, if_neg hmem]
        have hseen : ∀ a, a ∈ reg.map (fun e => e.name) ++ [semNameOf t] ↔
            a ∈ semNameOf t :: reg.map (fun e => e.name) := by
          intro a
          simp only [List.mem_append, List.mem_singleton, List.mem_cons]
          tauto
        rw [dedupNew_congr hseen (collectibleNames ts)]
        simp
    · have hstep : collectSemStep pm bm m reg t = reg :=
        collectSemStep_eq_reg (by simpa using hcol)
      have hnames : collectibleNames (t :: ts) = collectibleNames ts := by
        simp only [collectibleNames, List.filter_cons, hcol, Bool.false_eq_true, if_false]
      rw [hcons, hstep, ih, hnames]

lemma orders_collectSem (pm bm : AMap) (m : Mode) :
    ∀ (ts : List Token) (reg : List SemEntry),
      reg.map (fun e => e.order) = List.range reg.length →
      (collectSem pm bm m ts reg).map (fun e => e.order) =
        List.range (collectSem pm bm m ts reg).length := by
  intro ts
  induction ts with
  | nil => intro reg h; exact h
  | cons t ts ih =>
    intro reg h
    have hcons : collectSem pm bm m (t :: ts) reg =
        collectSem pm bm m ts (collectSemStep pm bm m reg t) := rfl
    rw [hcons]
    apply ih
    by_cases hf : semFilter t = true
    · cases hc : toComposeColor t.value with
      | none =>
        rw [collectSemStep_eq_reg (by simp [collectible, hc])]
        exact h
      | some c =>
        rw [collectSemStep_eq_regSet hf hc]
        exact orders_regSet reg (semNameOf t) m _ h
    · rw [collectSemStep_eq_reg (by simp [collectible, hf])]
      exact h

lemma sortByOrder_eq_self {reg : List SemEntry}
    (h : reg.map (fun e => e.order) = List.range reg.length) :
    sortByOrder reg = reg := by
  apply List.Sorted.insertionSort_eq
  have hp : (reg.map (fun e => e.order)).Pairwise (· ≤ ·) := by
    rw [h]
    exact List.pairwise_le_range reg.length
  rw [List.pairwise_map] at hp
  exact hp

end V4

/-- C6: the merged semantics document lists identifiers in first-seen
insertion order across the light pass followed by the dark pass: its name
sequence is exactly the deduplicated sequence of contributing semantic
names of the light pass followed by the dark pass, each name at its first
occurrence. -/
theorem merged_names_first_seen_order (pm bm : AMap) (L D : List Token) :
    (V4.mergedEntries (V4.collectSem pm bm V4.Mode.dark D
        (V4.collectSem pm bm V4.Mode.light L []))).map (fun x => x.1) =
      dedupNew [] (collectibleNames L ++ collectibleNames D) := by
  have h1 := V4.names_collectSem pm bm V4.Mode.light L []
  simp only [List.map_nil, List.nil_append] at h1
  have horder1 := V4.orders_collectSem pm bm V4.Mode.light L [] (by simp)
  have horder2 := V4.orders_collectSem pm bm V4.Mode.dark D
    (V4.collectSem pm bm V4.Mode.light L []) horder1
  have h2 := V4.names_collectSem pm bm V4.Mode.dark D
    (V4.collectSem pm bm V4.Mode.light L [])
  have hsort := V4.sortByOrder_eq_self horder2
  have hcomp : ((fun x : String × String × String => x.1) ∘
      (fun e : V4.SemEntry => (e.name, V4.emitLight e, V4.emitDark e))) =
      fun e : V4.SemEntry => e.name := rfl
  simp only [V4.mergedEntries]
  rw [hsort, List.map_map, hcomp, h2, h1, dedupNew_append]
  congr 1
  refine dedupNew_congr (fun a => ?_) (collectibleNames D)
  simp [mem_dedupNew, mem_seenAfter]
